import Mathlib

/-!
Verification development for the ERC-721 NFT dapp front end.

The definitions below are a shallow embedding of the client-side read-model
reconciliation logic in `src/app/page.tsx`, the metadata resolution logic in
`src/components/NFTCard.tsx`, and the IPFS helpers in `src/lib/ipfs.ts`.

Modelling conventions:
* Contract reads are an oracle (`Chain`): each read returns `Option`, where
  `none` models a rejected promise (a thrown / failed read) and `some v` a
  successful read returning `v`.  Reads are idempotent, matching the
  side-effect-free read surface of the contract.
* JS strings are Lean `String`s; `toLowerCase` is `jsToLower`;
  JS string truthiness (`if (s)`) is `s ≠ ""`.
* `bigint` token identifiers from `Transfer` events are `Nat`s; the code
  immediately stringifies them (`args.tokenId.toString()`), modelled by
  `toString`.  JS bigint truthiness (`event.args?.tokenId`) is `≠ 0`.
* `BigInt(tokenId)` applied to the canonical decimal strings produced by
  `toString` is `decVal` (decimal evaluation of the digit string).
* `Array.prototype.sort(comparator)` with the code's comparator is modelled
  by `List.insertionSort` over the relation "comparator ≤ 0"; any
  comparison sort agrees with it on these inputs because the comparator
  returns 0 only on numerically equal identifiers and the deduplicated
  candidate sets never contain two distinct strings with equal numeric
  value.
* The `Promise.all` fan-out of per-token work is modelled two ways: the
  fan-in result (which is schedule-independent, since reads are
  idempotent) is computed by a sequential fold, and the interleaving of
  the shared owner-approval cache is modelled explicitly by a scheduled
  small-step semantics (`stepTask` / `runSched`) with one micro-step per
  `await` boundary.
-/

/-- A `Transfer(from, to, tokenId)` event as delivered by `queryFilter`. -/
structure TransferEvent where
  fromAddr : String
  toAddr : String
  tokenId : Nat
deriving Repr, DecidableEq

/-- The contract read surface used by the reconciliation code:
`ownerOf`, `tokenURI`, `getApproved` keyed by the (stringified) token id,
and `isApprovedForAll owner operatorAddr`.  `none` models a failed read. -/
structure Chain where
  ownerOf : String → Option String
  tokenURI : String → Option String
  getApproved : String → Option String
  isApprovedForAll : String → String → Option Bool

/-- `NFTInfo` from `page.tsx`. -/
structure NFTInfo where
  tokenId : String
  owner : String
  tokenURI : String
deriving Repr, DecidableEq

/-- The two approval classifications of `DelegatedNFTInfo`. -/
inductive ApprovalType where
  | single
  | all
deriving Repr, DecidableEq

/-- `DelegatedNFTInfo = NFTInfo & { approvalType }` from `page.tsx`. -/
structure DelegatedNFTInfo where
  tokenId : String
  owner : String
  tokenURI : String
  approvalType : ApprovalType
deriving Repr, DecidableEq

/-- `ethers.ZeroAddress`. -/
def zeroAddress : String := "0x0000000000000000000000000000000000000000"

/-- JS `String.prototype.toLowerCase` on the ASCII account/address strings
used here: lower-case each character. -/
def jsToLower (s : String) : String := ⟨s.data.map Char.toLower⟩

/-- One `Set.add` step of the discovery loops: a JS `Set` keeps the first
occurrence of each element in insertion order. -/
def addUnique (acc : List String) (x : String) : List String :=
  if x ∈ acc then acc else acc ++ [x]

/-- The discovery loop of `loadAllMyNFTs` (page.tsx:173-184): collect
`args.tokenId.toString()` of every event whose `to` is truthy and equals the
subject address case-insensitively, deduplicated in insertion order. -/
def myDiscoveredIds (address : String) (events : List TransferEvent) : List String :=
  events.foldl
    (fun acc e =>
      if e.toAddr ≠ "" ∧ jsToLower e.toAddr = jsToLower address then
        addUnique acc (toString e.tokenId)
      else acc)
    []

/-- The discovery loop of `loadAllNFTs` (page.tsx:226-231) and
`loadApprovedNFTs` (page.tsx:293-298): collect `args.tokenId.toString()` of
every event with truthy `tokenId` (JS bigint truthiness: `0n` is falsy, so
token id 0 is never discovered here), deduplicated in insertion order. -/
def allDiscoveredIds (events : List TransferEvent) : List String :=
  events.foldl
    (fun acc e =>
      if e.tokenId ≠ 0 then addUnique acc (toString e.tokenId) else acc)
    []

/-- `loadAllMyNFTs` (page.tsx:156-211), given the events returned by the
`Transfer(null, address)` filter: per discovered id, `ownerOf` (a failure is
caught and yields `null`, i.e. the token is dropped); a token is kept only
when the live owner equals the subject case-insensitively, with `tokenURI`
defaulting to `""` on failure (`.catch(() => '')`). -/
def loadAllMyNFTs (chain : Chain) (address : String) (events : List TransferEvent) :
    List NFTInfo :=
  (myDiscoveredIds address events).filterMap fun tokenId =>
    match chain.ownerOf tokenId with
    | none => none
    | some owner =>
      if jsToLower owner = jsToLower address then
        some { tokenId := tokenId, owner := owner,
               tokenURI := (chain.tokenURI tokenId).getD "" }
      else none

/-- `BigInt(s)` on the canonical decimal strings produced by
`bigint.toString()`: evaluate the digit string in base 10. -/
def decVal (s : String) : Nat :=
  s.data.foldl (fun n c => n * 10 + (c.toNat - 48)) 0

/-- The sort comparator of `loadAllNFTs` (page.tsx:249-253) and
`loadApprovedNFTs` (page.tsx:351-355):
`diff = BigInt(b.tokenId) - BigInt(a.tokenId); diff = 0 ? 0 : diff > 0 ? 1 : -1`. -/
def tokenIdComparator (ta tb : String) : Int :=
  let diff : Int := (decVal tb : Int) - (decVal ta : Int)
  if diff = 0 then 0 else if 0 < diff then 1 else -1

/-- The order produced by `Array.prototype.sort` with `tokenIdComparator`:
`a` may precede `b` exactly when the comparator is nonpositive. -/
def comparatorLe (ta tb : String) : Prop := tokenIdComparator ta tb ≤ 0

instance : DecidableRel comparatorLe := fun _ _ => Int.decLe _ _

/-- The comparator orders by descending numeric value of the id strings. -/
theorem comparatorLe_iff (ta tb : String) :
    comparatorLe ta tb ↔ decVal tb ≤ decVal ta := by
  show (if ((decVal tb : Int) - (decVal ta : Int)) = 0 then (0 : Int)
        else if 0 < ((decVal tb : Int) - (decVal ta : Int)) then 1 else -1) ≤ 0 ↔
      decVal tb ≤ decVal ta
  split
  · rename_i h
    omega
  · split
    · rename_i h h'
      omega
    · rename_i h h'
      omega

instance : IsTotal NFTInfo (fun a b => comparatorLe a.tokenId b.tokenId) := by
  constructor
  intro a b
  rw [comparatorLe_iff, comparatorLe_iff]
  exact (Nat.le_total (decVal b.tokenId) (decVal a.tokenId))

instance : IsTrans NFTInfo (fun a b => comparatorLe a.tokenId b.tokenId) := by
  constructor
  intro a b c hab hbc
  rw [comparatorLe_iff] at *
  exact le_trans hbc hab

instance : IsTotal DelegatedNFTInfo (fun a b => comparatorLe a.tokenId b.tokenId) := by
  constructor
  intro a b
  rw [comparatorLe_iff, comparatorLe_iff]
  exact (Nat.le_total (decVal b.tokenId) (decVal a.tokenId))

instance : IsTrans DelegatedNFTInfo (fun a b => comparatorLe a.tokenId b.tokenId) := by
  constructor
  intro a b c hab hbc
  rw [comparatorLe_iff] at *
  exact le_trans hbc hab

/-- `loadAllNFTs` (page.tsx:213-262): per discovered id, `ownerOf` and
`tokenURI` in parallel; an `ownerOf` failure drops the token (`catch`
returns `null`), a `tokenURI` failure defaults to `""`; the surviving
records are sorted by the comparator. -/
def loadAllNFTs (chain : Chain) (events : List TransferEvent) : List NFTInfo :=
  List.insertionSort (fun a b => comparatorLe a.tokenId b.tokenId)
    ((allDiscoveredIds events).filterMap fun tokenId =>
      match chain.ownerOf tokenId with
      | none => none
      | some owner =>
        some { tokenId := tokenId, owner := owner,
               tokenURI := (chain.tokenURI tokenId).getD "" })

/-- The single-token approval as seen by `loadApprovedNFTs`:
`contract.getApproved(tokenId).catch(() => ethers.ZeroAddress)` (page.tsx:308). -/
def singleApprovedOf (chain : Chain) (tokenId : String) : String :=
  (chain.getApproved tokenId).getD zeroAddress

/-- The operator approval as computed after a cache miss:
`contract.isApprovedForAll(owner, userAddress)` with `catch { isOperator = false }`
(page.tsx:322-327). -/
def operatorEff (chain : Chain) (owner userAddress : String) : Bool :=
  (chain.isApprovedForAll owner userAddress).getD false

/-- The single-approval test of page.tsx:312:
`approved && jsToLower approvedCase() === userAddressLower`. -/
def singleMatch (chain : Chain) (userAddress tokenId : String) : Prop :=
  singleApprovedOf chain tokenId ≠ "" ∧
    jsToLower (singleApprovedOf chain tokenId) = jsToLower userAddress

instance (chain : Chain) (userAddress tokenId : String) :
    Decidable (singleMatch chain userAddress tokenId) := by
  unfold singleMatch; infer_instance

/-- `ownerApprovalCache.get` on the owner-keyed `Map` (first write wins: a key
is only written when absent). -/
def cacheGet : List (String × Bool) → String → Option Bool
  | [], _ => none
  | (k, b) :: rest, key => if k = key then some b else cacheGet rest key

/-- The shared state of one `loadApprovedNFTs` pass: the
`ownerApprovalCache` and, as instrumentation, the chronological list of
lower-cased owners for which `isApprovedForAll` was actually invoked. -/
structure ApproveState where
  cache : List (String × Bool)
  calls : List String
deriving Repr, DecidableEq

/-- The per-token body of `loadApprovedNFTs` (page.tsx:303-345), run without
interleaving: `ownerOf`/`tokenURI`/`getApproved` (the latter two defaulting
on failure, an `ownerOf` failure dropping the token via the outer `catch`);
the single-approval check short-circuits to `'single'`; otherwise the
operator check consults the owner cache and calls `isApprovedForAll` only on
a miss, recording the call and the cached boolean. -/
def classifyToken (chain : Chain) (userAddress : String) (st : ApproveState)
    (tokenId : String) : Option DelegatedNFTInfo × ApproveState :=
  match chain.ownerOf tokenId with
  | none => (none, st)
  | some owner =>
    let tokenURI := (chain.tokenURI tokenId).getD ""
    let approved := singleApprovedOf chain tokenId
    if approved ≠ "" ∧ jsToLower approved = jsToLower userAddress then
      (some ⟨tokenId, owner, tokenURI, ApprovalType.single⟩, st)
    else
      let ownerLower := jsToLower owner
      match cacheGet st.cache ownerLower with
      | some isOperator =>
        (if isOperator then some ⟨tokenId, owner, tokenURI, ApprovalType.all⟩ else none, st)
      | none =>
        let isOperator := operatorEff chain owner userAddress
        (if isOperator then some ⟨tokenId, owner, tokenURI, ApprovalType.all⟩ else none,
         ⟨(ownerLower, isOperator) :: st.cache, st.calls ++ [ownerLower]⟩)

/-- Sequential fan-in of the per-token classifications of one
`loadApprovedNFTs` pass, threading the shared cache. -/
def approvedFold (chain : Chain) (userAddress : String) (ids : List String) :
    List DelegatedNFTInfo × ApproveState :=
  ids.foldl
    (fun acc tokenId =>
      let step := classifyToken chain userAddress acc.2 tokenId
      (acc.1 ++ step.1.toList, step.2))
    ([], ⟨[], []⟩)

/-- `loadApprovedNFTs` (page.tsx:264-364): discovery over all transfer
events, per-token classification, `null`s filtered out, result sorted by the
comparator. -/
def loadApprovedNFTs (chain : Chain) (userAddress : String)
    (events : List TransferEvent) : List DelegatedNFTInfo :=
  List.insertionSort (fun a b => comparatorLe a.tokenId b.tokenId)
    (approvedFold chain userAddress (allDiscoveredIds events)).1

/-- The lower-cased owners for which `isApprovedForAll` is invoked during
one sequential `loadApprovedNFTs` pass, in call order. -/
def operatorCalls (chain : Chain) (userAddress : String)
    (events : List TransferEvent) : List String :=
  (approvedFold chain userAddress (allDiscoveredIds events)).2.calls

/-- JS `String.prototype.trim`: strip whitespace from both ends. -/
def jsTrim (s : String) : String :=
  ⟨((s.data.dropWhile Char.isWhitespace).reverse.dropWhile Char.isWhitespace).reverse⟩

/-- `fetchTokenById` (page.tsx:366-404).  `some results` models a successful
query (`setTokenQueryResults(results)`); `none` models an aborted query: the
empty-input validation alert, or the `catch` branch reached when either of
the two reads fails — note `tokenURI` has no `.catch` fallback here
(page.tsx:389-392), so its failure aborts the whole query. -/
def fetchTokenById (chain : Chain) (tokenId : String) : Option (List NFTInfo) :=
  let normalizedTokenId := jsTrim tokenId
  if normalizedTokenId = "" then none
  else
    match chain.ownerOf normalizedTokenId, chain.tokenURI normalizedTokenId with
    | some owner, some tokenURI =>
      some [{ tokenId := normalizedTokenId, owner := owner, tokenURI := tokenURI }]
    | _, _ => none

/-- A chain whose best-effort reads never fail but return the neutral
defaults the code substitutes on failure: `""` for `tokenURI`,
`ethers.ZeroAddress` for `getApproved`, `false` for `isApprovedForAll`.
`ownerOf` is left untouched. -/
def defaultedReads (chain : Chain) : Chain where
  ownerOf := chain.ownerOf
  tokenURI := fun tokenId => some ((chain.tokenURI tokenId).getD "")
  getApproved := fun tokenId => some ((chain.getApproved tokenId).getD zeroAddress)
  isApprovedForAll := fun owner userAddress =>
    some ((chain.isApprovedForAll owner userAddress).getD false)

/-! ### IPFS helpers and the metadata resolver -/

/-- `getIPFSUrl` (ipfs.ts:152-154). -/
def getIPFSUrl (hash : String) : String := "ipfs://" ++ hash

/-- `getIPFSGatewayUrl` (ipfs.ts:157-162) at its default gateway argument. -/
def getIPFSGatewayUrl (hash : String) : String :=
  "https://gateway.pinata.cloud/ipfs/" ++ hash

/-- JS `String.prototype.startsWith`. -/
def strStartsWith (s p : String) : Bool :=
  decide (s.data.take p.data.length = p.data)

/-- Dropping the first `n` characters of a string.  Under a `startsWith`
guard this is exactly JS `url.replace(theMatchedPre, '')`, which removes the
first occurrence — here at position 0. -/
def strDrop (s : String) (n : Nat) : String := ⟨s.data.drop n⟩

/-- `convertIPFSUrl` (NFTCard.tsx:49-59): rewrite an `ipfs://` or an
`https://ipfs.io/ipfs/` locator to the configured gateway; leave every
other string unchanged.  (7 and 21 are the lengths of the two matched
string literals.) -/
def convertIPFSUrl (url : String) : String :=
  if strStartsWith url "ipfs://" then
    getIPFSGatewayUrl (strDrop url 7)
  else if strStartsWith url "https://ipfs.io/ipfs/" then
    getIPFSGatewayUrl (strDrop url 21)
  else url

/-- The metadata JSON fetched for a token (`NFTMetadata` in NFTCard.tsx);
all fields optional in the fetched document. -/
structure NFTMetadataJson where
  name : Option String
  description : Option String
  image : Option String
deriving Repr, DecidableEq

/-- The metadata object built by `handleMintWithImage` (page.tsx:467-471):
`description: nftDescription || `...` (JS `||` takes the default exactly on
the falsy empty string), `image: getIPFSUrl(imageHash)`. -/
structure NFTMetadata where
  name : String
  description : String
  image : String
deriving Repr, DecidableEq

def buildMintMetadata (nftName nftDescription imageHash : String) : NFTMetadata where
  name := nftName
  description := if nftDescription = "" then nftName ++ " NFT" else nftDescription
  image := getIPFSUrl imageHash

/-- The metadata-URL normalization at the top of `loadMetadata`
(NFTCard.tsx:68-74): only the `ipfs://` scheme is rewritten here. -/
def resolveMetadataUrl (tokenURI : String) : String :=
  if strStartsWith tokenURI "ipfs://" then getIPFSGatewayUrl (strDrop tokenURI 7)
  else tokenURI

/-- The observable outcome of one `loadMetadata` run (NFTCard.tsx:62-99):
the `metadata` and `imageUrl` state after the effect, plus the list of URLs
passed to `fetch` (instrumentation for the no-fetch property). -/
structure MetadataView where
  metadata : Option NFTMetadataJson
  imageUrl : Option String
  fetched : List String
deriving Repr, DecidableEq

/-- `loadMetadata` (NFTCard.tsx:62-99).  An empty `tokenURI` returns before
any work (`if (!tokenURI) return`).  `fetchJson` models
`fetch` + `response.ok` + `response.json()`: `none` is any network/HTTP/parse
failure, which the `catch` turns into `metadata = null`, `imageUrl = null`.
On success the image URL is set only for a truthy `data.image`, after
`convertIPFSUrl`. -/
def loadMetadata (fetchJson : String → Option NFTMetadataJson)
    (tokenURI : String) : MetadataView :=
  if tokenURI = "" then ⟨none, none, []⟩
  else
    let metadataUrl := resolveMetadataUrl tokenURI
    match fetchJson metadataUrl with
    | none => ⟨none, none, [metadataUrl]⟩
    | some data =>
      match data.image with
      | some img =>
        if img ≠ "" then ⟨some data, some (convertIPFSUrl img), [metadataUrl]⟩
        else ⟨some data, none, [metadataUrl]⟩
      | none => ⟨some data, none, [metadataUrl]⟩

/-! ### Interleaving semantics of the `loadApprovedNFTs` fan-out

`Array.from(tokenIdSet).map(async (tokenId) => ...)` starts one task per
discovered id; the tasks share `ownerApprovalCache` and yield control at
each `await`.  A task's body up to the cache check runs in one slice once
its initial reads resolve; on a cache miss the `isApprovedForAll` call is
issued in that same slice and the task suspends, writing the cache only in
its next slice (after the call resolves).  A schedule is the order of
slices. -/

/-- The control point of one per-token task.  `ready` is before its first
slice; `pendingOp` is suspended on an in-flight `isApprovedForAll` call
(carrying the values its continuation closes over); `finished` carries the
task's `DelegatedNFTInfo | null` outcome. -/
inductive TaskPhase where
  | ready (tokenId : String)
  | pendingOp (tokenId owner tokenURI ownerLower : String) (isOperator : Bool)
  | finished (result : Option DelegatedNFTInfo)
deriving Repr, DecidableEq

/-- Global state of a fan-out run: the per-task phases plus the shared
cache and the instrumented call log. -/
structure SchedState where
  tasks : List TaskPhase
  cache : List (String × Bool)
  calls : List String
deriving Repr, DecidableEq

/-- One slice of task `i` (no-op for out-of-range or finished tasks). -/
def stepTask (chain : Chain) (userAddress : String) (st : SchedState) (i : Nat) :
    SchedState :=
  match st.tasks.get? i with
  | none => st
  | some (TaskPhase.finished _) => st
  | some (TaskPhase.ready tokenId) =>
    match chain.ownerOf tokenId with
    | none => { st with tasks := st.tasks.set i (TaskPhase.finished none) }
    | some owner =>
      let tokenURI := (chain.tokenURI tokenId).getD ""
      let approved := singleApprovedOf chain tokenId
      if approved ≠ "" ∧ jsToLower approved = jsToLower userAddress then
        let ph := TaskPhase.finished (some ⟨tokenId, owner, tokenURI, ApprovalType.single⟩)
        { st with tasks := st.tasks.set i ph }
      else
        let ownerLower := jsToLower owner
        match cacheGet st.cache ownerLower with
        | some isOperator =>
          let res := if isOperator then some ⟨tokenId, owner, tokenURI, ApprovalType.all⟩ else none
          { st with tasks := st.tasks.set i (TaskPhase.finished res) }
        | none =>
          let ph := TaskPhase.pendingOp tokenId owner tokenURI ownerLower
            (operatorEff chain owner userAddress)
          { st with tasks := st.tasks.set i ph, calls := st.calls ++ [ownerLower] }
  | some (TaskPhase.pendingOp tokenId owner tokenURI ownerLower isOperator) =>
    let res := if isOperator then some ⟨tokenId, owner, tokenURI, ApprovalType.all⟩ else none
    { st with tasks := st.tasks.set i (TaskPhase.finished res),
              cache := (ownerLower, isOperator) :: st.cache }

/-- Run a schedule (a list of task indices, one slice each). -/
def runSched (chain : Chain) (userAddress : String) (st : SchedState)
    (schedule : List Nat) : SchedState :=
  schedule.foldl (stepTask chain userAddress) st

/-- The initial fan-out state for a set of events: one `ready` task per
discovered id, empty cache, no calls issued. -/
def initSched (events : List TransferEvent) : SchedState :=
  ⟨(allDiscoveredIds events).map TaskPhase.ready, [], []⟩

/-! ### Discovery-set lemmas -/

theorem mem_addUnique {acc : List String} {x y : String} :
    y ∈ addUnique acc x ↔ y ∈ acc ∨ y = x := by
  unfold addUnique
  split
  · rename_i hx
    constructor
    · intro h; exact Or.inl h
    · rintro (h | rfl)
      · exact h
      · exact hx
  · simp [List.mem_append]

theorem nodup_addUnique {acc : List String} {x : String} (h : acc.Nodup) :
    (addUnique acc x).Nodup := by
  unfold addUnique
  split
  · exact h
  · rename_i hx
    rw [List.nodup_append]
    refine ⟨h, List.nodup_singleton x, ?_⟩
    intro a ha hb
    rw [List.mem_singleton] at hb
    exact hx (hb ▸ ha)

theorem mem_discoverFold (p : TransferEvent → Prop) [DecidablePred p]
    (g : TransferEvent → String) (events : List TransferEvent) (acc : List String)
    (y : String) :
    y ∈ events.foldl (fun acc e => if p e then addUnique acc (g e) else acc) acc ↔
      y ∈ acc ∨ ∃ e ∈ events, p e ∧ g e = y := by
  induction events generalizing acc with
  | nil => simp
  | cons e es ih =>
    rw [List.foldl_cons, ih]
    by_cases hp : p e
    · simp only [if_pos hp, mem_addUnique, List.mem_cons]
      constructor
      · rintro ((h | rfl) | ⟨e', he', hpe', rfl⟩)
        · exact Or.inl h
        · exact Or.inr ⟨e, Or.inl rfl, hp, rfl⟩
        · exact Or.inr ⟨e', Or.inr he', hpe', rfl⟩
      · rintro (h | ⟨e', (rfl | he'), hpe', rfl⟩)
        · exact Or.inl (Or.inl h)
        · exact Or.inl (Or.inr rfl)
        · exact Or.inr ⟨e', he', hpe', rfl⟩
    · simp only [if_neg hp, List.mem_cons]
      constructor
      · rintro (h | ⟨e', he', hpe', rfl⟩)
        · exact Or.inl h
        · exact Or.inr ⟨e', Or.inr he', hpe', rfl⟩
      · rintro (h | ⟨e', (rfl | he'), hpe', rfl⟩)
        · exact Or.inl h
        · exact absurd hpe' hp
        · exact Or.inr ⟨e', he', hpe', rfl⟩

theorem nodup_discoverFold (p : TransferEvent → Prop) [DecidablePred p]
    (g : TransferEvent → String) (events : List TransferEvent) (acc : List String)
    (h : acc.Nodup) :
    (events.foldl (fun acc e => if p e then addUnique acc (g e) else acc) acc).Nodup := by
  induction events generalizing acc with
  | nil => exact h
  | cons e es ih =>
    rw [List.foldl_cons]
    apply ih
    split
    · exact nodup_addUnique h
    · exact h

theorem mem_myDiscoveredIds {address : String} {events : List TransferEvent}
    {tid : String} :
    tid ∈ myDiscoveredIds address events ↔
      ∃ e ∈ events, (e.toAddr ≠ "" ∧ jsToLower e.toAddr = jsToLower address) ∧
        toString e.tokenId = tid := by
  unfold myDiscoveredIds
  rw [mem_discoverFold (fun e => e.toAddr ≠ "" ∧ jsToLower e.toAddr = jsToLower address)
    (fun e => toString e.tokenId) events [] tid]
  simp

theorem nodup_myDiscoveredIds (address : String) (events : List TransferEvent) :
    (myDiscoveredIds address events).Nodup :=
  nodup_discoverFold _ _ events [] List.nodup_nil

theorem mem_allDiscoveredIds {events : List TransferEvent} {tid : String} :
    tid ∈ allDiscoveredIds events ↔
      ∃ e ∈ events, e.tokenId ≠ 0 ∧ toString e.tokenId = tid := by
  unfold allDiscoveredIds
  rw [mem_discoverFold (fun e => e.tokenId ≠ 0) (fun e => toString e.tokenId) events [] tid]
  simp

theorem nodup_allDiscoveredIds (events : List TransferEvent) :
    (allDiscoveredIds events).Nodup :=
  nodup_discoverFold _ _ events [] List.nodup_nil

/-! ### filterMap counting lemmas -/

theorem countP_filterMap_eq (g : String → Option NFTInfo) (d : List String)
    (hnd : d.Nodup) (hkey : ∀ s r, g s = some r → r.tokenId = s) (tid : String) :
    (d.filterMap g).countP (fun r => decide (r.tokenId = tid)) =
      if tid ∈ d ∧ (g tid).isSome then 1 else 0 := by
  induction d with
  | nil => simp
  | cons a d ih =>
    rw [List.nodup_cons] at hnd
    obtain ⟨ha, hnd⟩ := hnd
    rw [List.filterMap_cons]
    by_cases hat : tid = a
    · subst hat
      cases hg : g tid with
      | none =>
        rw [ih hnd]
        simp [hg]
      | some r =>
        have hr : r.tokenId = tid := hkey _ _ hg
        rw [List.countP_cons, ih hnd]
        simp [hg, hr, ha]
    · cases hg : g a with
      | none =>
        rw [ih hnd]
        by_cases hm : tid ∈ d
        · simp [List.mem_cons, hm]
        · simp [List.mem_cons, hm, hat]
      | some r =>
        have hr : r.tokenId = a := hkey _ _ hg
        rw [List.countP_cons, ih hnd]
        have : (decide (r.tokenId = tid)) = false := by
          simp [hr, hat, Ne.symm hat]
        rw [this]
        by_cases hm : tid ∈ d
        · simp [List.mem_cons, hm]
        · simp [List.mem_cons, hm, hat]

theorem length_filterMap_all_some (g : String → Option NFTInfo) (d : List String)
    (h : ∀ t ∈ d, (g t).isSome) : (d.filterMap g).length = d.length := by
  induction d with
  | nil => simp
  | cons a d ih =>
    rw [List.filterMap_cons]
    cases hg : g a with
    | none =>
      have := h a (List.mem_cons_self a d)
      rw [hg] at this
      simp at this
    | some r =>
      simp only [List.length_cons]
      rw [ih (fun t ht => h t (List.mem_cons_of_mem a ht))]

theorem length_filterMap_one_none (g : String → Option NFTInfo) (d : List String)
    (f : String) (hnd : d.Nodup) (hf : f ∈ d) (hgf : g f = none)
    (hrest : ∀ t ∈ d, t ≠ f → (g t).isSome) :
    (d.filterMap g).length = d.length - 1 := by
  induction d with
  | nil => simp at hf
  | cons a d ih =>
    rw [List.nodup_cons] at hnd
    obtain ⟨ha, hnd⟩ := hnd
    rw [List.filterMap_cons]
    rcases List.mem_cons.mp hf with rfl | hfd
    · rw [hgf]
      rw [length_filterMap_all_some g d (fun t ht => hrest t (List.mem_cons_of_mem _ ht)
        (fun hteq => ha (hteq ▸ ht)))]
      simp
    · have haf : a ≠ f := fun h => ha (h ▸ hfd)
      have := hrest a (List.mem_cons_self a d) haf
      cases hg : g a with
      | none => rw [hg] at this; simp at this
      | some r =>
        simp only [List.length_cons]
        rw [ih hnd hfd (fun t ht hne => hrest t (List.mem_cons_of_mem a ht) hne)]
        have : 0 < d.length := List.length_pos.mpr (List.ne_nil_of_mem hfd)
        omega

/-! ### Classifier soundness -/

/-- The chain resolves `isApprovedForAll` by the address an owner string
denotes: owner strings equal up to case receive the same answer.  (The
owner cache is keyed by `jsToLower ownerCase()`, so this is the property of
real chain reads that makes the cache sound.) -/
def OperatorConsistent (chain : Chain) (userAddress : String) : Prop :=
  ∀ o o', jsToLower o = jsToLower o' →
    chain.isApprovedForAll o userAddress = chain.isApprovedForAll o' userAddress

/-- Every cache entry holds the effective operator answer for the owners
its key stands for. -/
def CacheOk (chain : Chain) (userAddress : String) (cache : List (String × Bool)) : Prop :=
  ∀ k b, cacheGet cache k = some b →
    ∀ o, jsToLower o = k → b = operatorEff chain o userAddress

/-- Soundness of one delegated record: its owner is the live `ownerOf`
answer, its URI the defaulted `tokenURI` answer, and it passed one of the
two approval checks, `single` taking precedence. -/
def RecordOk (chain : Chain) (userAddress : String) (r : DelegatedNFTInfo) : Prop :=
  chain.ownerOf r.tokenId = some r.owner ∧
  r.tokenURI = (chain.tokenURI r.tokenId).getD "" ∧
  ((singleMatch chain userAddress r.tokenId ∧ r.approvalType = ApprovalType.single) ∨
   (¬ singleMatch chain userAddress r.tokenId ∧
     operatorEff chain r.owner userAddress = true ∧ r.approvalType = ApprovalType.all))

theorem classifyToken_sound {chain : Chain} {userAddress : String} {st : ApproveState}
    (hcons : OperatorConsistent chain userAddress)
    (hcache : CacheOk chain userAddress st.cache) (tokenId : String) :
    (∀ r, (classifyToken chain userAddress st tokenId).1 = some r →
      RecordOk chain userAddress r) ∧
    CacheOk chain userAddress (classifyToken chain userAddress st tokenId).2.cache := by
  unfold classifyToken
  cases hown : chain.ownerOf tokenId with
  | none => exact ⟨fun r h => by simp at h, hcache⟩
  | some owner =>
    simp only
    split
    · rename_i hsingle
      refine ⟨fun r h => ?_, hcache⟩
      simp only [Option.some.injEq] at h
      subst h
      exact ⟨hown, rfl, Or.inl ⟨hsingle, rfl⟩⟩
    · rename_i hnosingle
      cases hc : cacheGet st.cache (jsToLower owner) with
      | some isOperator =>
        simp only [hc]
        refine ⟨fun r h => ?_, hcache⟩
        by_cases hb : isOperator = true
        · subst hb
          simp only [if_true, Option.some.injEq] at h
          subst h
          refine ⟨hown, rfl, Or.inr ⟨hnosingle, ?_, rfl⟩⟩
          exact (hcache _ _ hc owner rfl).symm
        · simp [hb] at h
      | none =>
        simp only [hc]
        constructor
        · intro r h
          by_cases hb : operatorEff chain owner userAddress = true
          · simp only [hb, if_true, Option.some.injEq] at h
            subst h
            exact ⟨hown, rfl, Or.inr ⟨hnosingle, hb, rfl⟩⟩
          · simp [hb] at h
        · intro k b hk o ho
          by_cases hko : jsToLower owner = k
          · simp only [cacheGet, hko, if_true, Option.some.injEq] at hk
            subst hk
            unfold operatorEff
            rw [hcons owner o (by rw [ho, hko])]
          · simp only [cacheGet, hko, if_false] at hk
            exact hcache _ _ hk o ho

theorem approvedFoldAux_sound {chain : Chain} {userAddress : String}
    (hcons : OperatorConsistent chain userAddress) (ids : List String) :
    ∀ (acc : List DelegatedNFTInfo) (st : ApproveState),
      (∀ r ∈ acc, RecordOk chain userAddress r) →
      CacheOk chain userAddress st.cache →
      ∀ r ∈ (ids.foldl
        (fun acc tokenId =>
          let step := classifyToken chain userAddress acc.2 tokenId
          (acc.1 ++ step.1.toList, step.2))
        (acc, st)).1, RecordOk chain userAddress r := by
  induction ids with
  | nil => intro acc st hacc _ r hr; exact hacc r hr
  | cons tokenId ids ih =>
    intro acc st hacc hcache r hr
    rw [List.foldl_cons] at hr
    have hstep := classifyToken_sound hcons hcache tokenId
    refine ih _ _ ?_ hstep.2 r hr
    intro r' hr'
    rcases List.mem_append.mp hr' with h | h
    · exact hacc r' h
    · cases hres : (classifyToken chain userAddress st tokenId).1 with
      | none => rw [hres] at h; simp [Option.toList] at h
      | some r'' =>
        rw [hres] at h
        simp only [Option.toList, List.mem_singleton] at h
        subst h
        exact hstep.1 _ hres

theorem loadApprovedNFTs_sound {chain : Chain} {userAddress : String}
    {events : List TransferEvent} (hcons : OperatorConsistent chain userAddress) :
    ∀ r ∈ loadApprovedNFTs chain userAddress events, RecordOk chain userAddress r := by
  intro r hr
  rw [loadApprovedNFTs, List.mem_insertionSort] at hr
  exact approvedFoldAux_sound hcons (allDiscoveredIds events) [] ⟨[], []⟩
    (fun r h => by simp at h) (fun k b hk => by simp [cacheGet] at hk) r hr

/-! ### Call-log invariant of the sequential pass -/

/-- The instrumentation invariant: no owner key has been called twice, and
every called key is already cached. -/
def CallsOk (st : ApproveState) : Prop :=
  st.calls.Nodup ∧ ∀ k ∈ st.calls, (cacheGet st.cache k).isSome

theorem classifyToken_callsOk {chain : Chain} {userAddress : String}
    {st : ApproveState} (h : CallsOk st) (tokenId : String) :
    CallsOk (classifyToken chain userAddress st tokenId).2 := by
  unfold classifyToken
  cases hown : chain.ownerOf tokenId with
  | none => exact h
  | some owner =>
    simp only
    split
    · exact h
    · cases hc : cacheGet st.cache (jsToLower owner) with
      | some isOperator => simpa [hc] using h
      | none =>
        simp only [hc]
        have hnotin : jsToLower owner ∉ st.calls := by
          intro hmem
          have := h.2 _ hmem
          rw [hc] at this
          simp at this
        constructor
        · rw [List.nodup_append]
          refine ⟨h.1, List.nodup_singleton _, ?_⟩
          intro a ha hb
          rw [List.mem_singleton] at hb
          exact hnotin (hb ▸ ha)
        · intro k hk
          rcases List.mem_append.mp hk with hk | hk
          · have := h.2 k hk
            by_cases hko : jsToLower owner = k
            · simp [cacheGet, hko]
            · simpa [cacheGet, hko] using this
          · rw [List.mem_singleton] at hk
            subst hk
            simp [cacheGet]

theorem approvedFoldAux_callsOk {chain : Chain} {userAddress : String}
    (ids : List String) :
    ∀ (acc : List DelegatedNFTInfo) (st : ApproveState), CallsOk st →
      CallsOk (ids.foldl
        (fun acc tokenId =>
          let step := classifyToken chain userAddress acc.2 tokenId
          (acc.1 ++ step.1.toList, step.2))
        (acc, st)).2 := by
  induction ids with
  | nil => intro acc st h; exact h
  | cons tokenId ids ih =>
    intro acc st h
    rw [List.foldl_cons]
    exact ih _ _ (classifyToken_callsOk h tokenId)

theorem operatorCalls_nodup (chain : Chain) (userAddress : String)
    (events : List TransferEvent) : (operatorCalls chain userAddress events).Nodup := by
  have := @approvedFoldAux_callsOk chain userAddress (allDiscoveredIds events) [] ⟨[], []⟩ ⟨List.nodup_nil, fun k hk => by simp at hk⟩
  exact this.1

/-! ### Best-effort reads: failure is equivalent to the neutral default -/

theorem classifyToken_defaulted (chain : Chain) (userAddress : String)
    (st : ApproveState) (tokenId : String) :
    classifyToken (defaultedReads chain) userAddress st tokenId =
      classifyToken chain userAddress st tokenId := by
  unfold classifyToken defaultedReads singleApprovedOf operatorEff
  simp only [Option.getD_some]

theorem loadAllMyNFTs_defaulted (chain : Chain) (address : String)
    (events : List TransferEvent) :
    loadAllMyNFTs (defaultedReads chain) address events =
      loadAllMyNFTs chain address events := by
  unfold loadAllMyNFTs defaultedReads
  simp only [Option.getD_some]

theorem loadAllNFTs_defaulted (chain : Chain) (events : List TransferEvent) :
    loadAllNFTs (defaultedReads chain) events = loadAllNFTs chain events := by
  unfold loadAllNFTs defaultedReads
  simp only [Option.getD_some]

theorem approvedFold_defaulted (chain : Chain) (userAddress : String)
    (ids : List String) :
    approvedFold (defaultedReads chain) userAddress ids =
      approvedFold chain userAddress ids := by
  unfold approvedFold
  rw [show classifyToken (defaultedReads chain) userAddress =
      classifyToken chain userAddress from
    funext fun st => funext fun tokenId => classifyToken_defaulted chain userAddress st tokenId]

theorem loadApprovedNFTs_defaulted (chain : Chain) (userAddress : String)
    (events : List TransferEvent) :
    loadApprovedNFTs (defaultedReads chain) userAddress events =
      loadApprovedNFTs chain userAddress events := by
  unfold loadApprovedNFTs
  rw [approvedFold_defaulted]

/-! ### Claim theorems -/

/-- C1: `loadAllMyNFTs` first reduces the historical transfer events to a
set of identifiers in which each appears exactly once, no matter how many
events mention it (Nodup + membership characterization), and — under the
assumption that every live `ownerOf` read succeeds — the result contains
exactly one `TokenRecord` per discovered identifier whose live owner equals
the subject case-insensitively, and none for any other identifier. -/
theorem claim1 (chain : Chain) (address : String) (events : List TransferEvent)
    (_hOwn : ∀ tid ∈ myDiscoveredIds address events, (chain.ownerOf tid).isSome) :
    (myDiscoveredIds address events).Nodup ∧
    (∀ tid, tid ∈ myDiscoveredIds address events ↔
      ∃ e ∈ events, (e.toAddr ≠ "" ∧ jsToLower e.toAddr = jsToLower address) ∧
        toString e.tokenId = tid) ∧
    (∀ tid,
      (loadAllMyNFTs chain address events).countP (fun r => decide (r.tokenId = tid)) =
        if tid ∈ myDiscoveredIds address events ∧
            ((chain.ownerOf tid).any fun o => jsToLower o == jsToLower address) then
          1 else 0) := by
  refine ⟨nodup_myDiscoveredIds address events, fun tid => mem_myDiscoveredIds, fun tid => ?_⟩
  rw [loadAllMyNFTs, countP_filterMap_eq _ _ (nodup_myDiscoveredIds address events)]
  · by_cases hm : tid ∈ myDiscoveredIds address events
    · cases hown : chain.ownerOf tid with
      | none => simp [hm, hown]
      | some o =>
        by_cases ho : jsToLower o = jsToLower address
        · simp [hm, hown, ho]
        · simp [hm, hown, ho]
    · simp [hm]
  · intro s r hg
    cases hown : chain.ownerOf s with
    | none => rw [hown] at hg; simp at hg
    | some o =>
      rw [hown] at hg
      simp only at hg
      split at hg
      · simp only [Option.some.injEq] at hg
        subst hg
        rfl
      · simp at hg

/-- Concrete instance of C1: identifier 1 is mentioned by two transfer
events toward the subject and still contributes exactly one record;
identifier 2 was transferred on but is discovered and then rejected by the
live ownership check. -/
def w1Chain : Chain where
  ownerOf := fun tid =>
    if tid = "1" then some "0xAAA" else if tid = "2" then some "0xBBB" else none
  tokenURI := fun _ => some "u"
  getApproved := fun _ => none
  isApprovedForAll := fun _ _ => none

def w1Events : List TransferEvent :=
  [⟨"0x0", "0xAAA", 1⟩, ⟨"0xAAA", "0xBBB", 2⟩, ⟨"0xBBB", "0xAAA", 1⟩, ⟨"0x0", "0xAAA", 2⟩]

theorem claim1_witness :
    (∀ tid ∈ myDiscoveredIds "0xaaa" w1Events, (w1Chain.ownerOf tid).isSome) ∧
    ((myDiscoveredIds "0xaaa" w1Events).Nodup ∧
    (∀ tid, tid ∈ myDiscoveredIds "0xaaa" w1Events ↔
      ∃ e ∈ w1Events, (e.toAddr ≠ "" ∧ jsToLower e.toAddr = jsToLower "0xaaa") ∧
        toString e.tokenId = tid) ∧
    (∀ tid,
      (loadAllMyNFTs w1Chain "0xaaa" w1Events).countP (fun r => decide (r.tokenId = tid)) =
        if tid ∈ myDiscoveredIds "0xaaa" w1Events ∧
            ((w1Chain.ownerOf tid).any fun o => jsToLower o == jsToLower "0xaaa") then
          1 else 0)) :=
  ⟨by decide, claim1 w1Chain "0xaaa" w1Events (by decide)⟩

/-- Inputs refuting C2: two tokens of the same owner, neither singly
approved to the subject, whose owner has granted the subject blanket
operator approval. -/
def cex2Chain : Chain where
  ownerOf := fun tid => if tid = "1" ∨ tid = "2" then some "0xOwner" else none
  tokenURI := fun _ => some ""
  getApproved := fun _ => some zeroAddress
  isApprovedForAll := fun owner user =>
    if owner = "0xOwner" ∧ user = "0xuser" then some true else some false

def cex2Events : List TransferEvent := [⟨"0x0", "0xa", 1⟩, ⟨"0x0", "0xa", 2⟩]

/-- C2 counterexample: under the interleaving in which both per-token tasks
run their cache check before either writes the cache back (schedule
`[0, 1, 0, 1]` of the fan-out small-step semantics — exactly what happens
when both tokens' initial reads resolve before either `isApprovedForAll`
call does), `isApprovedForAll` is invoked twice for one distinct
(lower-cased) owner, so the at-most-once claim fails on the code. -/
theorem claim2_counterexample :
    (runSched cex2Chain "0xuser" (initSched cex2Events) [0, 1, 0, 1]).calls.count
        "0xowner" = 2 ∧
    ¬ (runSched cex2Chain "0xuser" (initSched cex2Events) [0, 1, 0, 1]).calls.Nodup := by
  decide

/-- C2 as amended: when the per-token classifications run without
interleaving (each task completes before the next starts — the sequential
fan-in `approvedFold`), the owner cache does guarantee that
`isApprovedForAll` is invoked at most once per distinct lower-cased owner
in one reconciliation pass; subsequent tokens with the same owner reuse
the cached boolean (the cache-hit branch of `classifyToken` issues no
call). -/
theorem claim2_amended (chain : Chain) (userAddress : String)
    (events : List TransferEvent) (ownerKey : String) :
    (operatorCalls chain userAddress events).count ownerKey ≤ 1 :=
  List.nodup_iff_count_le_one.mp (operatorCalls_nodup chain userAddress events) ownerKey

/-- C3: if a candidate token's `getApproved` answer (defaulted on failure)
is truthy and equals the subject case-insensitively, its classification is
`single` and the shared state — cache and `isApprovedForAll` call log — is
untouched: the operator check is not performed for that token.  The chain
is arbitrary, so this holds in particular when the token's owner has also
granted the subject blanket operator approval. -/
theorem claim3 (chain : Chain) (userAddress : String) (st : ApproveState)
    (tokenId owner : String) (hOwner : chain.ownerOf tokenId = some owner)
    (hne : singleApprovedOf chain tokenId ≠ "")
    (hmatch : jsToLower (singleApprovedOf chain tokenId) = jsToLower userAddress) :
    classifyToken chain userAddress st tokenId =
      (some ⟨tokenId, owner, (chain.tokenURI tokenId).getD "", ApprovalType.single⟩, st) := by
  unfold classifyToken
  rw [hOwner]
  simp only
  rw [if_pos ⟨hne, hmatch⟩]

/-- Inputs witnessing C3: token 5 is singly approved to the subject while
its owner has also granted the subject blanket operator approval. -/
def w3Chain : Chain where
  ownerOf := fun tid => if tid = "5" then some "0xOwn" else none
  tokenURI := fun _ => some "uri5"
  getApproved := fun tid => if tid = "5" then some "0xUser" else none
  isApprovedForAll := fun _ _ => some true

theorem claim3_witness :
    (w3Chain.ownerOf "5" = some "0xOwn" ∧
     singleApprovedOf w3Chain "5" ≠ "" ∧
     jsToLower (singleApprovedOf w3Chain "5") = jsToLower "0xuSer") ∧
    classifyToken w3Chain "0xuSer" ⟨[], []⟩ "5" =
      (some ⟨"5", "0xOwn", (w3Chain.tokenURI "5").getD "", ApprovalType.single⟩,
       (⟨[], []⟩ : ApproveState)) :=
  ⟨by decide,
   claim3 w3Chain "0xuSer" ⟨[], []⟩ "5" "0xOwn" (by decide) (by decide) (by decide)⟩

/-- C4: every record of the delegated result passed one of the two approval
checks at query time, with `single` taking precedence — assuming the chain
answers `isApprovedForAll` by the address the owner string denotes
(case-insensitively), which is what makes the lower-cased owner cache key
sound.  A candidate for which `ownerOf` fails, or for which neither check
holds (read failures defaulting to "no approval"), contributes no record:
if it did, the record would satisfy this disjunction, which is
contradictory for such a candidate. -/
theorem claim4 (chain : Chain) (userAddress : String) (events : List TransferEvent)
    (hcons : OperatorConsistent chain userAddress) :
    ∀ r ∈ loadApprovedNFTs chain userAddress events,
      chain.ownerOf r.tokenId = some r.owner ∧
      ((singleMatch chain userAddress r.tokenId ∧ r.approvalType = ApprovalType.single) ∨
       (¬ singleMatch chain userAddress r.tokenId ∧
         operatorEff chain r.owner userAddress = true ∧
         r.approvalType = ApprovalType.all)) := by
  intro r hr
  have h := loadApprovedNFTs_sound hcons r hr
  exact ⟨h.1, h.2.2⟩

/-- Inputs witnessing C4: token 7 reaches the delegated set through the
operator check alone. -/
def w4Chain : Chain where
  ownerOf := fun tid => if tid = "7" then some "0xO" else none
  tokenURI := fun _ => none
  getApproved := fun _ => none
  isApprovedForAll := fun owner user =>
    if jsToLower owner = "0xo" ∧ user = "0xuser" then some true else some false

def w4Events : List TransferEvent := [⟨"0x0", "0xa", 7⟩]

theorem claim4_witness :
    OperatorConsistent w4Chain "0xuser" ∧
    (⟨"7", "0xO", "", ApprovalType.all⟩ : DelegatedNFTInfo) ∈
      loadApprovedNFTs w4Chain "0xuser" w4Events ∧
    (w4Chain.ownerOf "7" = some "0xO" ∧
     ((singleMatch w4Chain "0xuser" "7" ∧ ApprovalType.all = ApprovalType.single) ∨
      (¬ singleMatch w4Chain "0xuser" "7" ∧
        operatorEff w4Chain "0xO" "0xuser" = true ∧
        ApprovalType.all = ApprovalType.all))) := by
  have hcons : OperatorConsistent w4Chain "0xuser" := by
    intro o o' h
    show (if jsToLower o = "0xo" ∧ "0xuser" = "0xuser" then some true else some false) =
      (if jsToLower o' = "0xo" ∧ "0xuser" = "0xuser" then some true else some false)
    rw [h]
  have hmem : (⟨"7", "0xO", "", ApprovalType.all⟩ : DelegatedNFTInfo) ∈
      loadApprovedNFTs w4Chain "0xuser" w4Events := by decide
  exact ⟨hcons, hmem, claim4 w4Chain "0xuser" w4Events hcons _ hmem⟩

/-- Inputs for the digit-length-crossing sort example of C5. -/
def w5Chain : Chain where
  ownerOf := fun tid => if tid = "9" ∨ tid = "10" ∨ tid = "2" then some "0xa" else none
  tokenURI := fun _ => some ""
  getApproved := fun _ => none
  isApprovedForAll := fun _ _ => none

def w5Events : List TransferEvent :=
  [⟨"0x0", "0xa", 9⟩, ⟨"0x0", "0xa", 10⟩, ⟨"0x0", "0xa", 2⟩]

/-- C5: the `all` and `delegated-to` results are sorted by descending
unsigned big-integer value of the decimal `tokenId` strings; the comparator
returns 0 exactly when the two identifiers are numerically equal; and the
digit-length-crossing example `["9", "10", "2"]` comes out `["10", "9", "2"]`
(a lexical sort would have put "9" first). -/
theorem claim5 :
    (∀ (chain : Chain) (events : List TransferEvent),
      (loadAllNFTs chain events).Sorted
        (fun a b => decVal b.tokenId ≤ decVal a.tokenId)) ∧
    (∀ (chain : Chain) (userAddress : String) (events : List TransferEvent),
      (loadApprovedNFTs chain userAddress events).Sorted
        (fun a b => decVal b.tokenId ≤ decVal a.tokenId)) ∧
    (∀ ta tb, tokenIdComparator ta tb = 0 ↔ decVal ta = decVal tb) ∧
    (loadAllNFTs w5Chain w5Events).map NFTInfo.tokenId = ["10", "9", "2"] := by
  refine ⟨fun chain events => ?_, fun chain userAddress events => ?_, fun ta tb => ?_, by decide⟩
  · exact (List.sorted_insertionSort _ _).imp fun h => (comparatorLe_iff _ _).mp h
  · exact (List.sorted_insertionSort _ _).imp fun h => (comparatorLe_iff _ _).mp h
  · show (if ((decVal tb : Int) - (decVal ta : Int)) = 0 then (0 : Int)
        else if 0 < ((decVal tb : Int) - (decVal ta : Int)) then 1 else -1) = 0 ↔
      decVal ta = decVal tb
    split
    · rename_i h
      omega
    · split
      · rename_i h h'
        omega
      · rename_i h h'
        omega

/-- Inputs refuting C6: `ownerOf` succeeds for token 1 but `tokenURI`
fails. -/
def uriFailChain : Chain where
  ownerOf := fun tid => if tid = "1" then some "0xOwner" else none
  tokenURI := fun _ => none
  getApproved := fun _ => none
  isApprovedForAll := fun _ _ => none

/-- C6 counterexample: in the single-token query (`fetchTokenById`), the
`tokenURI` read has no `.catch` fallback, so its failure propagates to the
outer handler and aborts the query (`none`) instead of resolving to the
neutral default `""` — refuting the claim that the neutral-default policy
holds in all query modes including the single-token query. -/
theorem claim6_counterexample :
    uriFailChain.ownerOf "1" = some "0xOwner" ∧
    uriFailChain.tokenURI "1" = none ∧
    fetchTokenById uriFailChain "1" = none ∧
    fetchTokenById uriFailChain "1" ≠
      some [{ tokenId := "1", owner := "0xOwner", tokenURI := "" }] := by
  decide

/-- C6 as amended: in the three batch modes (`owned-by`, `all`,
`delegated-to`) a failure of `tokenURI`, `getApproved` or
`isApprovedForAll` is never propagated: the run is indistinguishable from
one on a chain whose best-effort reads succeed with the neutral defaults
(`""`, zero address, `false`), leaving the rest of the batch unaffected.
The single-token query is excluded: there a `tokenURI` failure aborts the
query (see the counterexample). -/
theorem claim6_amended (chain : Chain) (address userAddress : String)
    (events : List TransferEvent) :
    loadAllMyNFTs (defaultedReads chain) address events =
      loadAllMyNFTs chain address events ∧
    loadAllNFTs (defaultedReads chain) events = loadAllNFTs chain events ∧
    loadApprovedNFTs (defaultedReads chain) userAddress events =
      loadApprovedNFTs chain userAddress events :=
  ⟨loadAllMyNFTs_defaulted chain address events,
   loadAllNFTs_defaulted chain events,
   loadApprovedNFTs_defaulted chain userAddress events⟩

/-- C7: if the live `ownerOf` read fails for exactly one identifier of the
candidate batch and succeeds for all others, the `all`-mode reconciliation
returns one record per surviving identifier (n − 1 records), the failing
identifier is excluded, and the reconciliation still returns normally (it
is a total function into a record list — the per-token `catch` turns the
failure into `null`, never into a batch error). -/
theorem claim7 (chain : Chain) (events : List TransferEvent) (f : String)
    (hmem : f ∈ allDiscoveredIds events) (hfail : chain.ownerOf f = none)
    (hrest : ∀ t ∈ allDiscoveredIds events, t ≠ f → (chain.ownerOf t).isSome) :
    (loadAllNFTs chain events).length = (allDiscoveredIds events).length - 1 ∧
    ∀ r ∈ loadAllNFTs chain events, r.tokenId ≠ f := by
  constructor
  · rw [loadAllNFTs, List.length_insertionSort]
    apply length_filterMap_one_none _ _ f (nodup_allDiscoveredIds events) hmem
    · simp [hfail]
    · intro t ht htf
      have h := hrest t ht htf
      cases hot : chain.ownerOf t with
      | none => rw [hot] at h; simp at h
      | some o => simp [hot]
  · intro r hr
    rw [loadAllNFTs, List.mem_insertionSort, List.mem_filterMap] at hr
    obtain ⟨t, ht, hgt⟩ := hr
    cases hot : chain.ownerOf t with
    | none => rw [hot] at hgt; simp at hgt
    | some o =>
      rw [hot] at hgt
      simp only [Option.some.injEq] at hgt
      intro hrf
      rw [← hgt] at hrf
      simp only at hrf
      subst hrf
      rw [hot] at hfail
      exact Option.noConfusion hfail

/-- Inputs witnessing C7: a 5-identifier batch in which only identifier 3's
`ownerOf` fails. -/
def w7Chain : Chain where
  ownerOf := fun tid => if tid = "3" then none else
    if tid = "1" ∨ tid = "2" ∨ tid = "4" ∨ tid = "5" then some "0xa" else none
  tokenURI := fun _ => some ""
  getApproved := fun _ => none
  isApprovedForAll := fun _ _ => none

def w7Events : List TransferEvent :=
  [⟨"0x0", "0xa", 1⟩, ⟨"0x0", "0xa", 2⟩, ⟨"0x0", "0xa", 3⟩,
   ⟨"0x0", "0xa", 4⟩, ⟨"0x0", "0xa", 5⟩]

theorem claim7_witness :
    ("3" ∈ allDiscoveredIds w7Events ∧
     w7Chain.ownerOf "3" = none ∧
     (∀ t ∈ allDiscoveredIds w7Events, t ≠ "3" → (w7Chain.ownerOf t).isSome)) ∧
    (allDiscoveredIds w7Events).length = 5 ∧
    (loadAllNFTs w7Chain w7Events).length = 4 ∧
    ((loadAllNFTs w7Chain w7Events).length = (allDiscoveredIds w7Events).length - 1 ∧
     ∀ r ∈ loadAllNFTs w7Chain w7Events, r.tokenId ≠ "3") :=
  ⟨by decide, by decide, by decide,
   claim7 w7Chain w7Events "3" (by decide) (by decide) (by decide)⟩

/-! ### String-locator lemmas -/

theorem strStartsWith_append_self (p h : String) : strStartsWith (p ++ h) p = true := by
  unfold strStartsWith
  rw [decide_eq_true_eq]
  show ((p ++ h).data).take p.data.length = p.data
  have hd : (p ++ h).data = p.data ++ h.data := rfl
  rw [hd, List.take_left]

theorem strDrop_append_self (p h : String) : strDrop (p ++ h) p.data.length = h := by
  unfold strDrop
  have hd : (p ++ h).data = p.data ++ h.data := rfl
  rw [hd, List.drop_left]

theorem gatewayUrl_not_ipfs_scheme (h : String) :
    strStartsWith ("https://ipfs.io/ipfs/" ++ h) "ipfs://" = false := by
  unfold strStartsWith
  rw [decide_eq_false_iff_not]
  have hd : ("https://ipfs.io/ipfs/" ++ h).data =
      "https://ipfs.io/ipfs/".data ++ h.data := rfl
  rw [hd, List.take_append_of_le_length (by decide)]
  decide

/-- C8 counterexample: `convertIPFSUrl` does not leave every
non-`ipfs://` string unchanged — it also rewrites the second recognized
form, `https://ipfs.io/ipfs/...`, to the configured gateway. -/
theorem claim8_counterexample :
    convertIPFSUrl "https://ipfs.io/ipfs/QmX" =
      "https://gateway.pinata.cloud/ipfs/QmX" ∧
    convertIPFSUrl "https://ipfs.io/ipfs/QmX" ≠ "https://ipfs.io/ipfs/QmX" := by
  decide

/-- C8 as amended: locator normalization recognizes two content-addressing
forms — `ipfs://<hash>` and the public-gateway form
`https://ipfs.io/ipfs/<hash>` — and rewrites both to the configured gateway
`https://gateway.pinata.cloud/ipfs/<hash>`; every string matching neither
form is left unchanged; and the image reference embedded in successfully
fetched metadata undergoes exactly this normalization (`convertIPFSUrl`)
before display. -/
theorem claim8_amended (url h uri : String)
    (fetchJson : String → Option NFTMetadataJson) (data : NFTMetadataJson)
    (img : String) :
    convertIPFSUrl ("ipfs://" ++ h) = "https://gateway.pinata.cloud/ipfs/" ++ h ∧
    convertIPFSUrl ("https://ipfs.io/ipfs/" ++ h) =
      "https://gateway.pinata.cloud/ipfs/" ++ h ∧
    (strStartsWith url "ipfs://" = false →
      strStartsWith url "https://ipfs.io/ipfs/" = false →
      convertIPFSUrl url = url) ∧
    (uri ≠ "" → fetchJson (resolveMetadataUrl uri) = some data →
      data.image = some img → img ≠ "" →
      (loadMetadata fetchJson uri).imageUrl = some (convertIPFSUrl img)) := by
  refine ⟨?_, ?_, ?_, ?_⟩
  · unfold convertIPFSUrl
    rw [strStartsWith_append_self]
    have h7 : ("ipfs://" : String).data.length = 7 := rfl
    simp only [if_true]
    rw [← h7, strDrop_append_self]
    rfl
  · unfold convertIPFSUrl
    rw [gatewayUrl_not_ipfs_scheme, strStartsWith_append_self]
    have h21 : ("https://ipfs.io/ipfs/" : String).data.length = 21 := rfl
    simp only [Bool.false_eq_true, if_false, if_true]
    rw [← h21, strDrop_append_self]
    rfl
  · intro h1 h2
    unfold convertIPFSUrl
    rw [h1, h2]
    simp
  · intro huri hfetch himg himgne
    simp only [loadMetadata, huri, if_false, hfetch, himg, himgne, if_true, ite_not]

/-- Inputs witnessing C8 as amended. -/
def w8Data : NFTMetadataJson := ⟨some "Alpha", some "d", some "ipfs://QmI"⟩

def w8Fetch : String → Option NFTMetadataJson := fun u =>
  if u = "https://gateway.pinata.cloud/ipfs/QmB" then some w8Data else none

theorem claim8_amended_witness :
    (strStartsWith "https://example.com/a" "ipfs://" = false ∧
     strStartsWith "https://example.com/a" "https://ipfs.io/ipfs/" = false ∧
     ("ipfs://QmB" : String) ≠ "" ∧
     w8Fetch (resolveMetadataUrl "ipfs://QmB") = some w8Data ∧
     w8Data.image = some "ipfs://QmI" ∧ ("ipfs://QmI" : String) ≠ "") ∧
    (convertIPFSUrl ("ipfs://" ++ "QmA") = "https://gateway.pinata.cloud/ipfs/" ++ "QmA" ∧
     convertIPFSUrl ("https://ipfs.io/ipfs/" ++ "QmA") =
       "https://gateway.pinata.cloud/ipfs/" ++ "QmA" ∧
     convertIPFSUrl "https://example.com/a" = "https://example.com/a" ∧
     (loadMetadata w8Fetch "ipfs://QmB").imageUrl = some (convertIPFSUrl "ipfs://QmI")) := by
  have t := claim8_amended "https://example.com/a" "QmA" "ipfs://QmB" w8Fetch w8Data "ipfs://QmI"
  exact ⟨by decide,
    t.1, t.2.1,
    t.2.2.1 (by decide) (by decide),
    t.2.2.2 (by decide) (by decide) (by decide) (by decide)⟩

/-- C9: when minting with an uploaded image, an empty user description
defaults to `name ++ " NFT"` while the name is used unchanged; a non-empty
description is used verbatim. -/
theorem claim9 (nftName nftDescription imageHash : String)
    (hdesc : nftDescription ≠ "") :
    (buildMintMetadata nftName "" imageHash).description = nftName ++ " NFT" ∧
    (buildMintMetadata nftName "" imageHash).name = nftName ∧
    (buildMintMetadata nftName nftDescription imageHash).description = nftDescription ∧
    (buildMintMetadata nftName nftDescription imageHash).name = nftName := by
  refine ⟨rfl, rfl, ?_, rfl⟩
  simp [buildMintMetadata, hdesc]

theorem claim9_witness :
    (("custom" : String) ≠ "") ∧
    ((buildMintMetadata "Alpha" "" "QmImg").description = "Alpha" ++ " NFT" ∧
     (buildMintMetadata "Alpha" "" "QmImg").name = "Alpha" ∧
     (buildMintMetadata "Alpha" "custom" "QmImg").description = "custom" ∧
     (buildMintMetadata "Alpha" "custom" "QmImg").name = "Alpha") :=
  ⟨by decide, claim9 "Alpha" "custom" "QmImg" (by decide)⟩

/-- C10: for an empty `tokenURI` the metadata loader returns before any
work: no URL is ever passed to `fetch`, and both the metadata object and
the image URL stay absent — so the empty URI (the neutral default of a
failed `tokenURI` read) can never itself produce a fetch error. -/
theorem claim10 (fetchJson : String → Option NFTMetadataJson) :
    (loadMetadata fetchJson "").fetched = [] ∧
    (loadMetadata fetchJson "").metadata = none ∧
    (loadMetadata fetchJson "").imageUrl = none :=
  ⟨rfl, rfl, rfl⟩
